import Mathlib

/-!
Shallow embedding of the affinity-statistics engine of the repository:
`incremental_affinity_updater.py` (class `AffinityCache`) and
`market_basket_analyzer.py` (class `MarketBasketAnalyzer`), together with
proofs about the claims of the specification.

Modelling conventions:
* item identifiers are an arbitrary linearly ordered type `α` (Python
  strings under lexicographic order);
* a basket (Python `set` of product ids) is a `Finset α`;
* each `defaultdict(int)` is modelled by its zero-defaulted total value
  function together with its key set (`item_keys`, `pair_keys`), because a
  `defaultdict` read `d[k]` inserts the key `k` with value `0` when absent
  and `d.items()` / `len(d)` iterate only over present keys;
* Python float arithmetic on the derived metrics is modelled by exact
  rational arithmetic (`ℚ`); all numerators/denominators are small counts.
-/

set_option maxHeartbeats 1000000

namespace HCL

variable {α : Type*} [LinearOrder α]

/-- The nested index loop of `update_with_new_transaction`
(`for i in range(len(l)): for j in range(i+1, len(l)): pair = (l[i], l[j])`)
applied to a list: all pairs `(l[i], l[j])` with `i < j`, in loop order. -/
def pairsOf : List α → List (α × α)
  | [] => []
  | x :: xs => (xs.map fun y => (x, y)) ++ pairsOf xs

/-- `tuple(sorted(itemset))` for a two-element itemset `(a, b)`. -/
def sortPair (a b : α) : α × α := if a ≤ b then (a, b) else (b, a)

/-- State of the Python class `AffinityCache`.  `item_counts` and
`pair_counts` are the zero-defaulted value functions of the two
`defaultdict(int)` attributes, `item_keys` and `pair_keys` their key sets. -/
structure AffinityCache (α : Type*) where
  total_transactions : ℕ
  item_counts : α → ℕ
  item_keys : Finset α
  pair_counts : α × α → ℕ
  pair_keys : Finset (α × α)
  all_products : Finset α

attribute [ext] AffinityCache

namespace AffinityCache

/-- `AffinityCache.__init__`: everything empty / zero. -/
def init : AffinityCache α where
  total_transactions := 0
  item_counts := fun _ => 0
  item_keys := ∅
  pair_counts := fun _ => 0
  pair_keys := ∅
  all_products := ∅

/-- `AffinityCache.update_with_new_transaction`: bump the transaction count,
increment `item_counts[item]` for each item of the basket, and increment
`pair_counts[(l[i], l[j])]` (`i < j`) over the sorted basket list; the
`defaultdict` writes insert the touched keys. -/
def update_with_new_transaction (s : AffinityCache α) (basket : Finset α) :
    AffinityCache α where
  total_transactions := s.total_transactions + 1
  item_counts := fun x => s.item_counts x + (if x ∈ basket then 1 else 0)
  item_keys := s.item_keys ∪ basket
  pair_counts := fun p => s.pair_counts p + (pairsOf (basket.sort (· ≤ ·))).count p
  pair_keys := s.pair_keys ∪ (pairsOf (basket.sort (· ≤ ·))).toFinset
  all_products := s.all_products ∪ basket

/-- `AffinityCache.update_with_batch`: ingest each basket in order. -/
def update_with_batch (s : AffinityCache α) (baskets : List (Finset α)) :
    AffinityCache α :=
  baskets.foldl update_with_new_transaction s

/-- Value returned by `AffinityCache.get_support`.  The itemset is a tuple of
any length; only singletons and (sorted) pairs are looked up, after the
`total_transactions == 0` guard. -/
def get_support (s : AffinityCache α) (itemset : List α) : ℚ :=
  if s.total_transactions = 0 then 0
  else
    match itemset with
    | [a] => (s.item_counts a : ℚ) / (s.total_transactions : ℚ)
    | [a, b] => (s.pair_counts (sortPair a b) : ℚ) / (s.total_transactions : ℚ)
    | _ => 0

/-- State after `AffinityCache.get_support`: when the zero guard does not
fire, the `defaultdict` read inserts the looked-up key (with value 0 if it
was absent, which leaves the value function unchanged). -/
def get_support_state (s : AffinityCache α) (itemset : List α) : AffinityCache α :=
  if s.total_transactions = 0 then s
  else
    match itemset with
    | [a] => { s with item_keys := insert a s.item_keys }
    | [a, b] => { s with pair_keys := insert (sortPair a b) s.pair_keys }
    | _ => s

/-- Value returned by `AffinityCache.get_confidence`. -/
def get_confidence (s : AffinityCache α) (antecedent consequent : α) : ℚ :=
  if s.get_support [antecedent] = 0 then 0
  else s.get_support [antecedent, consequent] / s.get_support [antecedent]

/-- State after `AffinityCache.get_confidence`: it reads `support((a,))`,
and also `support((a, b))` unless the former is zero. -/
def get_confidence_state (s : AffinityCache α) (antecedent consequent : α) :
    AffinityCache α :=
  if s.get_support [antecedent] = 0 then s.get_support_state [antecedent]
  else (s.get_support_state [antecedent]).get_support_state [antecedent, consequent]

/-- Value returned by `AffinityCache.get_lift`. -/
def get_lift (s : AffinityCache α) (antecedent consequent : α) : ℚ :=
  if s.get_support [consequent] = 0 then 0
  else s.get_confidence antecedent consequent / s.get_support [consequent]

/-- State after `AffinityCache.get_lift`: `get_confidence` runs first, then
`support((consequent,))` is read unconditionally. -/
def get_lift_state (s : AffinityCache α) (antecedent consequent : α) :
    AffinityCache α :=
  (s.get_confidence_state antecedent consequent).get_support_state [consequent]

end AffinityCache

/-- One row of the rule table: `product_a`, `product_b`, `support`,
`confidence`, `lift` (the redundant `direction` string of the Python row is
determined by the first two fields and is omitted). -/
structure Rule (α : Type*) where
  product_a : α
  product_b : α
  support : ℚ
  confidence : ℚ
  lift : ℚ
deriving DecidableEq

namespace AffinityCache

/-- The two directional rows appended by `get_updated_affinities` for a
stored pair `p`; `support` is computed in the loop as
`count / self.total_transactions` with no zero guard (in `ℚ`, division by
zero yields 0; the reachability theorem shows the loop body never runs when
`total_transactions = 0`). -/
def pairRules (s : AffinityCache α) (p : α × α) : Finset (Rule α) :=
  { ⟨p.1, p.2, (s.pair_counts p : ℚ) / (s.total_transactions : ℚ),
      s.get_confidence p.1 p.2, s.get_lift p.1 p.2⟩,
    ⟨p.2, p.1, (s.pair_counts p : ℚ) / (s.total_transactions : ℚ),
      s.get_confidence p.2 p.1, s.get_lift p.2 p.1⟩ }

/-- The filter of `get_updated_affinities`: a stored pair survives iff its
support is not below `min_support` and not both directional confidences are
below `min_confidence`. -/
def passesThresholds (s : AffinityCache α) (ms mc : ℚ) (p : α × α) : Prop :=
  ms ≤ (s.pair_counts p : ℚ) / (s.total_transactions : ℚ) ∧
    (mc ≤ s.get_confidence p.1 p.2 ∨ mc ≤ s.get_confidence p.2 p.1)

instance (s : AffinityCache α) (ms mc : ℚ) : DecidablePred (s.passesThresholds ms mc) :=
  fun _ => instDecidableAnd

/-- Rule table returned by `AffinityCache.get_updated_affinities`: iterate
over the keys of `pair_counts`, keep the pairs passing both thresholds, and
emit both directional rows for each. -/
def get_updated_affinities (s : AffinityCache α) (ms mc : ℚ) : Finset (Rule α) :=
  (s.pair_keys.filter (s.passesThresholds ms mc)).biUnion s.pairRules

/-- Statistics snapshot of `AffinityCache.get_statistics`, restricted to its
iteration-order-independent fields.  The values of `most_frequent_item` /
`most_frequent_pair` break ties by dict insertion order, which the key-set
model does not record; what the model keeps is whether each is `None`
(the Python code returns `None` exactly when the respective dict is empty). -/
structure Statistics where
  total_transactions : ℕ
  unique_products : ℕ
  unique_pairs : ℕ
  has_most_frequent_item : Bool
  has_most_frequent_pair : Bool
deriving DecidableEq

/-- `AffinityCache.get_statistics` (order-independent fields; it performs
only reads — `len`, `.items()`, `max` — so it inserts no keys). -/
def get_statistics (s : AffinityCache α) : Statistics where
  total_transactions := s.total_transactions
  unique_products := s.all_products.card
  unique_pairs := s.pair_keys.card
  has_most_frequent_item := s.item_keys ≠ ∅
  has_most_frequent_pair := s.pair_keys ≠ ∅

end AffinityCache

namespace MarketBasketAnalyzer

/-!
`MarketBasketAnalyzer` keeps no running counts in its hot path: `analyze`
calls `build_transaction_baskets` (identical grouping to the incremental
updater's `initialize_from_line_items`: one `Finset` of distinct product ids
per transaction id) and then computes every metric by scanning
`transaction_baskets`.  All functions below therefore take the basket list
(the state set by `build_transaction_baskets`) as explicit input.
-/

/-- Value returned by `MarketBasketAnalyzer.calculate_support`: the itemset
tuple is converted to a Python set (`set(itemset)`) and the baskets
containing it as a subset are counted.  There is no arity guard. -/
def calculate_support (baskets : List (Finset α)) (itemset : List α) : ℚ :=
  if baskets.length = 0 then 0
  else (baskets.countP (fun b => decide (itemset.toFinset ⊆ b)) : ℚ) /
    (baskets.length : ℚ)

/-- `MarketBasketAnalyzer.calculate_confidence`. -/
def calculate_confidence (baskets : List (Finset α)) (antecedent consequent : α) : ℚ :=
  if calculate_support baskets [antecedent] = 0 then 0
  else calculate_support baskets [antecedent, consequent] /
    calculate_support baskets [antecedent]

/-- `MarketBasketAnalyzer.calculate_lift`. -/
def calculate_lift (baskets : List (Finset α)) (antecedent consequent : α) : ℚ :=
  if calculate_support baskets [consequent] = 0 then 0
  else calculate_confidence baskets antecedent consequent /
    calculate_support baskets [consequent]

/-- The global product set accumulated by `generate_product_pairs`
(`all_products.update(basket)` over all baskets). -/
def all_products (baskets : List (Finset α)) : Finset α :=
  baskets.foldl (· ∪ ·) ∅

/-- `MarketBasketAnalyzer.generate_product_pairs`:
`combinations(sorted(all_products), 2)`, i.e. all pairs `(a, b)` of global
products with `a < b`. -/
def generate_product_pairs (baskets : List (Finset α)) : Finset (α × α) :=
  (all_products baskets ×ˢ all_products baskets).filter fun p => p.1 < p.2

/-- The filter of `analyze`: keep a candidate pair iff its support is not
below `min_support` and not both directional confidences are below
`min_confidence`. -/
def analyzePred (baskets : List (Finset α)) (ms mc : ℚ) (p : α × α) : Prop :=
  ms ≤ calculate_support baskets [p.1, p.2] ∧
    (mc ≤ calculate_confidence baskets p.1 p.2 ∨
      mc ≤ calculate_confidence baskets p.2 p.1)

instance (baskets : List (Finset α)) (ms mc : ℚ) :
    DecidablePred (analyzePred baskets ms mc) :=
  fun _ => instDecidableAnd

/-- The two directional rows appended by `analyze` for a surviving pair. -/
def analyzeRules (baskets : List (Finset α)) (p : α × α) : Finset (Rule α) :=
  { ⟨p.1, p.2, calculate_support baskets [p.1, p.2],
      calculate_confidence baskets p.1 p.2, calculate_lift baskets p.1 p.2⟩,
    ⟨p.2, p.1, calculate_support baskets [p.1, p.2],
      calculate_confidence baskets p.2 p.1, calculate_lift baskets p.2 p.1⟩ }

/-- Rule table of `MarketBasketAnalyzer.analyze` (before the optional
product-name augmentation): filter the global candidate pairs by the
thresholds and emit both directional rows per surviving pair. -/
def analyze (baskets : List (Finset α)) (ms mc : ℚ) : Finset (Rule α) :=
  ((generate_product_pairs baskets).filter (analyzePred baskets ms mc)).biUnion
    (analyzeRules baskets)

/-- Full result of `MarketBasketAnalyzer.analyze` including the optional
name augmentation.  When `products_df` is supplied, the code evaluates
`results_df['product_a'].map(product_names)`; an empty rule list makes
`results_df` a DataFrame *with no columns*, on which the column read raises
`KeyError: 'product_a'` — modelled by `Except.error`.  Otherwise each row is
augmented with the (possibly missing, i.e. NaN ↦ `none`) display names. -/
def analyze_result (baskets : List (Finset α)) (products : Option (α → Option String))
    (ms mc : ℚ) : Except String (Finset (Rule α × Option String × Option String)) :=
  let rules := analyze baskets ms mc
  match products with
  | none => Except.ok (rules.image fun r => (r, none, none))
  | some names =>
      if rules = ∅ then Except.error "KeyError: product_a"
      else Except.ok (rules.image fun r => (r, names r.product_a, names r.product_b))

end MarketBasketAnalyzer

namespace AffinityCache

/-- The two count invariants stated by the data-model section of the spec:
no item occurs in more baskets than there are baskets, and no pair co-occurs
more often than either member item occurs. -/
def Inv (s : AffinityCache α) : Prop :=
  (∀ x, s.item_counts x ≤ s.total_transactions) ∧
    ∀ p : α × α, s.pair_counts p ≤ min (s.item_counts p.1) (s.item_counts p.2)

/-- States reachable from a fresh cache by any sequence of the public
operations: ingestion (single transaction or batch) and the point queries
with their `defaultdict` key-insertion side effects. -/
inductive Reachable : AffinityCache α → Prop
  | init : Reachable init
  | update (s : AffinityCache α) (b : Finset α) :
      Reachable s → Reachable (s.update_with_new_transaction b)
  | batch (s : AffinityCache α) (bs : List (Finset α)) :
      Reachable s → Reachable (s.update_with_batch bs)
  | supportQuery (s : AffinityCache α) (itemset : List α) :
      Reachable s → Reachable (s.get_support_state itemset)
  | confidenceQuery (s : AffinityCache α) (a b : α) :
      Reachable s → Reachable (s.get_confidence_state a b)
  | liftQuery (s : AffinityCache α) (a b : α) :
      Reachable s → Reachable (s.get_lift_state a b)

end AffinityCache

/-! ### Characterisation of the pair loop -/

theorem mem_pairsOf {l : List α} {p : α × α} (h : p ∈ pairsOf l) :
    p.1 ∈ l ∧ p.2 ∈ l := by
  induction l with
  | nil => simp [pairsOf] at h
  | cons x xs ih =>
    rw [pairsOf, List.mem_append] at h
    rcases h with h | h
    · obtain ⟨y, hy, rfl⟩ := List.mem_map.mp h
      exact ⟨List.mem_cons_self _ _, List.mem_cons_of_mem _ hy⟩
    · exact ⟨List.mem_cons_of_mem _ (ih h).1, List.mem_cons_of_mem _ (ih h).2⟩

theorem mem_pairsOf_iff {l : List α} (hl : l.Sorted (· < ·)) {p : α × α} :
    p ∈ pairsOf l ↔ p.1 ∈ l ∧ p.2 ∈ l ∧ p.1 < p.2 := by
  induction l with
  | nil => simp [pairsOf]
  | cons x xs ih =>
    rw [List.sorted_cons] at hl
    rw [pairsOf, List.mem_append, ih hl.2]
    constructor
    · rintro (h | ⟨h1, h2, h3⟩)
      · obtain ⟨y, hy, rfl⟩ := List.mem_map.mp h
        exact ⟨List.mem_cons_self _ _, List.mem_cons_of_mem _ hy, hl.1 y hy⟩
      · exact ⟨List.mem_cons_of_mem _ h1, List.mem_cons_of_mem _ h2, h3⟩
    · rintro ⟨h1, h2, h3⟩
      rcases List.mem_cons.mp h1 with h1 | h1
      · left
        rcases List.mem_cons.mp h2 with h2 | h2
        · exact absurd (h1 ▸ h2 ▸ h3) (lt_irrefl _)
        · exact List.mem_map.mpr ⟨p.2, h2, by rw [← h1]⟩
      · right
        refine ⟨h1, ?_, h3⟩
        rcases List.mem_cons.mp h2 with h2 | h2
        · exact absurd (h3.trans_le (h2 ▸ (hl.1 p.1 h1).le)) (lt_irrefl _)
        · exact h2

theorem pairsOf_nodup {l : List α} (hl : l.Sorted (· < ·)) : (pairsOf l).Nodup := by
  induction l with
  | nil => simp [pairsOf]
  | cons x xs ih =>
    rw [List.sorted_cons] at hl
    rw [pairsOf, List.nodup_append]
    refine ⟨List.Nodup.map ?_ (hl.2.nodup), ih hl.2, ?_⟩
    · intro a b hab
      exact (Prod.mk.injEq _ _ _ _).mp hab |>.2
    · intro p hp hp'
      obtain ⟨y, hy, rfl⟩ := List.mem_map.mp hp
      have := (mem_pairsOf hp').1
      exact absurd (hl.1 x this) (lt_irrefl _)

theorem count_of_nodup {β : Type*} [BEq β] [LawfulBEq β] {l : List β} (h : l.Nodup)
    (p : β) : l.count p = if p ∈ l then 1 else 0 := by
  induction l with
  | nil => simp
  | cons b l ih =>
    rw [List.nodup_cons] at h
    rw [List.count_cons, ih h.2]
    by_cases hb : p = b
    · subst hb
      simp [h.1]
    · simp [hb, Ne.symm hb]

theorem count_pairsOf {l : List α} (hl : l.Sorted (· < ·)) (p : α × α) :
    (pairsOf l).count p = if p.1 ∈ l ∧ p.2 ∈ l ∧ p.1 < p.2 then 1 else 0 := by
  rw [count_of_nodup (pairsOf_nodup hl)]
  simp only [mem_pairsOf_iff hl]

theorem count_pairsOf_sort (b : Finset α) (p : α × α) :
    (pairsOf (b.sort (· ≤ ·))).count p =
      if p.1 ∈ b ∧ p.2 ∈ b ∧ p.1 < p.2 then 1 else 0 := by
  rw [count_pairsOf (Finset.sort_sorted_lt b)]
  simp only [Finset.mem_sort]

theorem mem_pairsOf_sort {b : Finset α} {p : α × α} :
    p ∈ pairsOf (b.sort (· ≤ ·)) ↔ p.1 ∈ b ∧ p.2 ∈ b ∧ p.1 < p.2 := by
  rw [mem_pairsOf_iff (Finset.sort_sorted_lt b)]
  simp only [Finset.mem_sort]

/-! ### Characterisation of ingestion -/

namespace AffinityCache

theorem update_total (s : AffinityCache α) (b : Finset α) :
    (s.update_with_new_transaction b).total_transactions = s.total_transactions + 1 :=
  rfl

theorem update_item_counts (s : AffinityCache α) (b : Finset α) (x : α) :
    (s.update_with_new_transaction b).item_counts x =
      s.item_counts x + (if x ∈ b then 1 else 0) :=
  rfl

theorem update_pair_counts (s : AffinityCache α) (b : Finset α) (p : α × α) :
    (s.update_with_new_transaction b).pair_counts p =
      s.pair_counts p + (if p.1 ∈ b ∧ p.2 ∈ b ∧ p.1 < p.2 then 1 else 0) := by
  show s.pair_counts p + _ = _
  rw [count_pairsOf_sort]

theorem update_pair_keys (s : AffinityCache α) (b : Finset α) (p : α × α) :
    p ∈ (s.update_with_new_transaction b).pair_keys ↔
      p ∈ s.pair_keys ∨ (p.1 ∈ b ∧ p.2 ∈ b ∧ p.1 < p.2) := by
  show p ∈ s.pair_keys ∪ _ ↔ _
  rw [Finset.mem_union, List.mem_toFinset, mem_pairsOf_sort]

theorem batch_cons (s : AffinityCache α) (b : Finset α) (bs : List (Finset α)) :
    s.update_with_batch (b :: bs) = (s.update_with_new_transaction b).update_with_batch bs :=
  rfl

theorem batch_total (s : AffinityCache α) (bs : List (Finset α)) :
    (s.update_with_batch bs).total_transactions = s.total_transactions + bs.length := by
  induction bs generalizing s with
  | nil => rfl
  | cons b bs ih => rw [batch_cons, ih, update_total, List.length_cons]; omega

theorem batch_item_counts (s : AffinityCache α) (bs : List (Finset α)) (x : α) :
    (s.update_with_batch bs).item_counts x =
      s.item_counts x + bs.countP (fun b => decide (x ∈ b)) := by
  induction bs generalizing s with
  | nil => rfl
  | cons b bs ih =>
    rw [batch_cons, ih, update_item_counts, List.countP_cons]
    by_cases hx : x ∈ b <;> simp [hx] <;> omega

theorem batch_pair_counts (s : AffinityCache α) (bs : List (Finset α)) (p : α × α) :
    (s.update_with_batch bs).pair_counts p =
      s.pair_counts p + bs.countP (fun b => decide (p.1 ∈ b ∧ p.2 ∈ b ∧ p.1 < p.2)) := by
  induction bs generalizing s with
  | nil => rfl
  | cons b bs ih =>
    rw [batch_cons, ih, update_pair_counts, List.countP_cons]
    by_cases hb : p.1 ∈ b ∧ p.2 ∈ b ∧ p.1 < p.2 <;> simp [hb] <;> omega

theorem batch_pair_keys (s : AffinityCache α) (bs : List (Finset α)) (p : α × α) :
    p ∈ (s.update_with_batch bs).pair_keys ↔
      p ∈ s.pair_keys ∨ ∃ b ∈ bs, p.1 ∈ b ∧ p.2 ∈ b ∧ p.1 < p.2 := by
  induction bs generalizing s with
  | nil => simp [update_with_batch]
  | cons b bs ih =>
    rw [batch_cons, ih, update_pair_keys]
    simp only [List.mem_cons]
    constructor
    · rintro ((h | h) | ⟨c, hc, h⟩)
      · exact Or.inl h
      · exact Or.inr ⟨b, Or.inl rfl, h⟩
      · exact Or.inr ⟨c, Or.inr hc, h⟩
    · rintro (h | ⟨c, rfl | hc, h⟩)
      · exact Or.inl (Or.inl h)
      · exact Or.inl (Or.inr h)
      · exact Or.inr ⟨c, hc, h⟩

theorem batch_all_products (s : AffinityCache α) (bs : List (Finset α)) (x : α) :
    x ∈ (s.update_with_batch bs).all_products ↔
      x ∈ s.all_products ∨ ∃ b ∈ bs, x ∈ b := by
  induction bs generalizing s with
  | nil => simp [update_with_batch]
  | cons b bs ih =>
    rw [batch_cons, ih]
    show (x ∈ s.all_products ∪ b ∨ _) ↔ _
    rw [Finset.mem_union]
    simp only [List.mem_cons]
    constructor
    · rintro ((h | h) | ⟨c, hc, h⟩)
      · exact Or.inl h
      · exact Or.inr ⟨b, Or.inl rfl, h⟩
      · exact Or.inr ⟨c, Or.inr hc, h⟩
    · rintro (h | ⟨c, rfl | hc, h⟩)
      · exact Or.inl (Or.inl h)
      · exact Or.inl (Or.inr h)
      · exact Or.inr ⟨c, hc, h⟩

/-- A fresh cache after ingesting a list of baskets, as
`IncrementalAffinityUpdater.initialize_from_line_items` /
`process_new_batch` do after basket building. -/
def ingest_all (bs : List (Finset α)) : AffinityCache α :=
  init.update_with_batch bs

theorem ingest_all_total (bs : List (Finset α)) :
    (ingest_all bs).total_transactions = bs.length := by
  rw [ingest_all, batch_total]
  simp [init]

theorem ingest_all_item_counts (bs : List (Finset α)) (x : α) :
    (ingest_all bs).item_counts x = bs.countP (fun b => decide (x ∈ b)) := by
  rw [ingest_all, batch_item_counts]
  simp [init]

theorem ingest_all_pair_counts (bs : List (Finset α)) (p : α × α) :
    (ingest_all bs).pair_counts p =
      bs.countP (fun b => decide (p.1 ∈ b ∧ p.2 ∈ b ∧ p.1 < p.2)) := by
  rw [ingest_all, batch_pair_counts]
  simp [init]

theorem ingest_all_pair_counts_lt (bs : List (Finset α)) {p : α × α} (h : p.1 < p.2) :
    (ingest_all bs).pair_counts p = bs.countP (fun b => decide (p.1 ∈ b ∧ p.2 ∈ b)) := by
  rw [ingest_all_pair_counts]
  refine List.countP_congr fun b _ => ?_
  simp [h]

theorem ingest_all_pair_keys (bs : List (Finset α)) (p : α × α) :
    p ∈ (ingest_all bs).pair_keys ↔
      p.1 < p.2 ∧ 0 < bs.countP (fun b => decide (p.1 ∈ b ∧ p.2 ∈ b)) := by
  rw [ingest_all, batch_pair_keys, List.countP_pos]
  constructor
  · rintro (h | ⟨b, hb, h1, h2, h3⟩)
    · exact absurd h (Finset.not_mem_empty p)
    · exact ⟨h3, b, hb, by simp [h1, h2]⟩
  · rintro ⟨hlt, b, hb, h⟩
    simp only [decide_eq_true_eq] at h
    exact Or.inr ⟨b, hb, h.1, h.2, hlt⟩

theorem ingest_all_all_products (bs : List (Finset α)) (x : α) :
    x ∈ (ingest_all bs).all_products ↔ ∃ b ∈ bs, x ∈ b := by
  rw [ingest_all, batch_all_products]
  simp [init]

end AffinityCache

namespace MarketBasketAnalyzer

theorem mem_foldl_union (bs : List (Finset α)) (acc : Finset α) (x : α) :
    x ∈ bs.foldl (· ∪ ·) acc ↔ x ∈ acc ∨ ∃ b ∈ bs, x ∈ b := by
  induction bs generalizing acc with
  | nil => simp
  | cons b bs ih =>
    rw [List.foldl_cons, ih, Finset.mem_union]
    simp only [List.mem_cons]
    constructor
    · rintro ((h | h) | ⟨c, hc, h⟩)
      · exact Or.inl h
      · exact Or.inr ⟨b, Or.inl rfl, h⟩
      · exact Or.inr ⟨c, Or.inr hc, h⟩
    · rintro (h | ⟨c, rfl | hc, h⟩)
      · exact Or.inl (Or.inl h)
      · exact Or.inl (Or.inr h)
      · exact Or.inr ⟨c, hc, h⟩

theorem mem_all_products (bs : List (Finset α)) (x : α) :
    x ∈ all_products bs ↔ ∃ b ∈ bs, x ∈ b := by
  rw [all_products, mem_foldl_union]
  simp

theorem mem_generate_product_pairs (bs : List (Finset α)) (p : α × α) :
    p ∈ generate_product_pairs bs ↔
      p.1 ∈ all_products bs ∧ p.2 ∈ all_products bs ∧ p.1 < p.2 := by
  rw [generate_product_pairs, Finset.mem_filter, Finset.mem_product]
  tauto

/-- Singleton support agrees between the two paths. -/
theorem get_support_single_eq (bs : List (Finset α)) (a : α) :
    (AffinityCache.ingest_all bs).get_support [a] = calculate_support bs [a] := by
  rw [AffinityCache.get_support, calculate_support, AffinityCache.ingest_all_total]
  rcases Nat.eq_zero_or_pos bs.length with h | h
  · simp [h]
  · rw [if_neg (by omega), if_neg (by omega), AffinityCache.ingest_all_item_counts]
    congr 2
    refine List.countP_congr fun b _ => ?_
    simp

/-- Pair support agrees between the two paths for distinct items. -/
theorem get_support_pair_eq (bs : List (Finset α)) {a b : α} (hab : a ≠ b) :
    (AffinityCache.ingest_all bs).get_support [a, b] = calculate_support bs [a, b] := by
  rw [AffinityCache.get_support, calculate_support, AffinityCache.ingest_all_total]
  rcases Nat.eq_zero_or_pos bs.length with h | h
  · simp [h]
  · rw [if_neg (by omega), if_neg (by omega)]
    have hlt : (sortPair a b).1 < (sortPair a b).2 := by
      rw [sortPair]
      rcases lt_or_gt_of_ne hab with hl | hl
      · rw [if_pos hl.le]
        exact hl
      · rw [if_neg (not_le_of_lt hl)]
        exact hl
    rw [AffinityCache.ingest_all_pair_counts_lt bs hlt]
    congr 2
    refine List.countP_congr fun c _ => ?_
    rw [sortPair]
    by_cases hle : a ≤ b <;> simp [hle, Finset.insert_subset_iff] <;> tauto

/-- Directional confidence agrees between the two paths for distinct items. -/
theorem get_confidence_eq (bs : List (Finset α)) {a b : α} (hab : a ≠ b) :
    (AffinityCache.ingest_all bs).get_confidence a b = calculate_confidence bs a b := by
  rw [AffinityCache.get_confidence, calculate_confidence, get_support_single_eq,
    get_support_pair_eq bs hab]

/-- Directional lift agrees between the two paths for distinct items. -/
theorem get_lift_eq (bs : List (Finset α)) {a b : α} (hab : a ≠ b) :
    (AffinityCache.ingest_all bs).get_lift a b = calculate_lift bs a b := by
  rw [AffinityCache.get_lift, calculate_lift, get_support_single_eq,
    get_confidence_eq bs hab]

theorem calculate_support_pair (bs : List (Finset α)) (a b : α) :
    calculate_support bs [a, b] =
      (bs.countP (fun c => decide (a ∈ c ∧ b ∈ c)) : ℚ) / (bs.length : ℚ) := by
  cases bs with
  | nil => simp [calculate_support]
  | cons c ts =>
    rw [calculate_support, if_neg (by simp)]
    congr 2
    refine List.countP_congr fun d _ => ?_
    simp [Finset.insert_subset_iff]

/-- The unguarded `count / self.total_transactions` computed inside the
`get_updated_affinities` loop equals the batch path's pair support. -/
theorem support_loop_eq (bs : List (Finset α)) {p : α × α} (hlt : p.1 < p.2) :
    ((AffinityCache.ingest_all bs).pair_counts p : ℚ) /
      ((AffinityCache.ingest_all bs).total_transactions : ℚ) =
      calculate_support bs [p.1, p.2] := by
  rw [AffinityCache.ingest_all_pair_counts_lt bs hlt, AffinityCache.ingest_all_total,
    calculate_support_pair]

theorem calculate_confidence_of_no_cooccur (bs : List (Finset α)) {a b : α}
    (hc : bs.countP (fun c => decide (a ∈ c ∧ b ∈ c)) = 0) :
    calculate_confidence bs a b = 0 := by
  rw [calculate_confidence, calculate_support_pair, hc]
  simp

/-- On a candidate pair `(a, b)` with `a < b`, the filter of `analyze` and
the filter of `get_updated_affinities` agree. -/
theorem pred_iff (bs : List (Finset α)) (ms mc : ℚ) {p : α × α} (hlt : p.1 < p.2) :
    analyzePred bs ms mc p ↔ (AffinityCache.ingest_all bs).passesThresholds ms mc p := by
  have hne : p.1 ≠ p.2 := ne_of_lt hlt
  rw [analyzePred, AffinityCache.passesThresholds, support_loop_eq bs hlt,
    get_confidence_eq bs hne, get_confidence_eq bs (Ne.symm hne)]

/-- On a pair with `a < b`, the two rows emitted by `analyze` equal the two
rows emitted by `get_updated_affinities`. -/
theorem rules_eq (bs : List (Finset α)) {p : α × α} (hlt : p.1 < p.2) :
    analyzeRules bs p = (AffinityCache.ingest_all bs).pairRules p := by
  have hne : p.1 ≠ p.2 := ne_of_lt hlt
  rw [analyzeRules, AffinityCache.pairRules, support_loop_eq bs hlt,
    get_confidence_eq bs hne, get_confidence_eq bs (Ne.symm hne),
    get_lift_eq bs hne, get_lift_eq bs (Ne.symm hne)]

/-- Provided at least one threshold is positive, the candidate pairs
surviving the batch filter are exactly the stored pairs surviving the
incremental filter. -/
theorem filter_candidates_eq (bs : List (Finset α)) (ms mc : ℚ) (h : 0 < ms ∨ 0 < mc) :
    (generate_product_pairs bs).filter (analyzePred bs ms mc) =
      (AffinityCache.ingest_all bs).pair_keys.filter
        ((AffinityCache.ingest_all bs).passesThresholds ms mc) := by
  ext p
  rw [Finset.mem_filter, Finset.mem_filter, mem_generate_product_pairs,
    AffinityCache.ingest_all_pair_keys]
  constructor
  · rintro ⟨⟨h1, h2, hlt⟩, hpred⟩
    rcases Nat.eq_zero_or_pos (bs.countP (fun c => decide (p.1 ∈ c ∧ p.2 ∈ c))) with hc | hc
    · exfalso
      have hsup : calculate_support bs [p.1, p.2] = 0 := by
        rw [calculate_support_pair, hc]
        simp
      have hc' : bs.countP (fun c => decide (p.2 ∈ c ∧ p.1 ∈ c)) = 0 := by
        rw [← hc]
        refine List.countP_congr fun d _ => ?_
        simp [and_comm]
      obtain ⟨hms, hmc⟩ := hpred
      rw [hsup] at hms
      have hz1 := calculate_confidence_of_no_cooccur bs hc
      have hz2 := calculate_confidence_of_no_cooccur bs hc'
      rcases hmc with hmc | hmc
      · rw [hz1] at hmc
        rcases h with h | h
        · exact absurd (h.trans_le hms) (lt_irrefl _)
        · exact absurd (h.trans_le hmc) (lt_irrefl _)
      · rw [hz2] at hmc
        rcases h with h | h
        · exact absurd (h.trans_le hms) (lt_irrefl _)
        · exact absurd (h.trans_le hmc) (lt_irrefl _)
    · exact ⟨⟨hlt, hc⟩, (pred_iff bs ms mc hlt).mp hpred⟩
  · rintro ⟨⟨hlt, hc⟩, hpass⟩
    obtain ⟨b, hb, hmem⟩ := List.countP_pos.mp hc
    simp only [decide_eq_true_eq] at hmem
    exact ⟨⟨(mem_all_products bs p.1).mpr ⟨b, hb, hmem.1⟩,
      (mem_all_products bs p.2).mpr ⟨b, hb, hmem.2⟩, hlt⟩,
      (pred_iff bs ms mc hlt).mpr hpass⟩

end MarketBasketAnalyzer

/-! ### Frame properties of the query operations -/

namespace AffinityCache

theorem support_state_frame (s : AffinityCache α) (its : List α) :
    (s.get_support_state its).total_transactions = s.total_transactions ∧
    (s.get_support_state its).item_counts = s.item_counts ∧
    (s.get_support_state its).pair_counts = s.pair_counts ∧
    (s.get_support_state its).all_products = s.all_products := by
  rcases its with _ | ⟨x, _ | ⟨y, _ | ⟨z, t⟩⟩⟩ <;>
    · rw [get_support_state]
      · split <;> exact ⟨rfl, rfl, rfl, rfl⟩
      all_goals simp

theorem confidence_state_frame (s : AffinityCache α) (a b : α) :
    (s.get_confidence_state a b).total_transactions = s.total_transactions ∧
    (s.get_confidence_state a b).item_counts = s.item_counts ∧
    (s.get_confidence_state a b).pair_counts = s.pair_counts ∧
    (s.get_confidence_state a b).all_products = s.all_products := by
  rw [get_confidence_state]
  split
  · exact support_state_frame s [a]
  · obtain ⟨h1, h2, h3, h4⟩ := support_state_frame s [a]
    obtain ⟨g1, g2, g3, g4⟩ := support_state_frame (s.get_support_state [a]) [a, b]
    exact ⟨g1.trans h1, g2.trans h2, g3.trans h3, g4.trans h4⟩

theorem lift_state_frame (s : AffinityCache α) (a b : α) :
    (s.get_lift_state a b).total_transactions = s.total_transactions ∧
    (s.get_lift_state a b).item_counts = s.item_counts ∧
    (s.get_lift_state a b).pair_counts = s.pair_counts ∧
    (s.get_lift_state a b).all_products = s.all_products := by
  obtain ⟨h1, h2, h3, h4⟩ := confidence_state_frame s a b
  obtain ⟨g1, g2, g3, g4⟩ := support_state_frame (s.get_confidence_state a b) [b]
  exact ⟨g1.trans h1, g2.trans h2, g3.trans h3, g4.trans h4⟩

theorem init_support_state (its : List α) :
    (init : AffinityCache α).get_support_state its = init := by
  rcases its with _ | ⟨x, _ | ⟨y, _ | ⟨z, t⟩⟩⟩ <;>
    · rw [get_support_state]
      · rw [if_pos (show (init : AffinityCache α).total_transactions = 0 from rfl)]
      all_goals simp

theorem init_get_support (its : List α) : (init : AffinityCache α).get_support its = 0 := by
  rcases its with _ | ⟨x, _ | ⟨y, _ | ⟨z, t⟩⟩⟩ <;>
    · rw [get_support]
      · rw [if_pos (show (init : AffinityCache α).total_transactions = 0 from rfl)]
      all_goals simp

theorem init_confidence_state (a b : α) :
    (init : AffinityCache α).get_confidence_state a b = init := by
  rw [get_confidence_state]
  split
  · exact init_support_state [a]
  · rw [init_support_state, init_support_state]

theorem init_lift_state (a b : α) :
    (init : AffinityCache α).get_lift_state a b = init := by
  rw [get_lift_state, init_confidence_state, init_support_state]

/-- A reachable state with zero transactions is the fresh state: ingestion
makes the count positive and the query guards fire before any `defaultdict`
access when the count is zero. -/
theorem reachable_total_zero {s : AffinityCache α} (h : Reachable s) :
    s.total_transactions = 0 → s = init := by
  induction h with
  | init => exact fun _ => rfl
  | update s' b _ _ =>
    intro h0
    rw [update_total] at h0
    omega
  | batch s' bs _ ih =>
    intro h0
    rw [batch_total] at h0
    have h1 : s'.total_transactions = 0 := by omega
    have h2 : bs = [] := List.length_eq_zero.mp (by omega)
    rw [h2, ih h1]
    rfl
  | supportQuery s' its _ ih =>
    intro h0
    rw [(support_state_frame s' its).1] at h0
    rw [ih h0, init_support_state]
  | confidenceQuery s' a b _ ih =>
    intro h0
    rw [(confidence_state_frame s' a b).1] at h0
    rw [ih h0, init_confidence_state]
  | liftQuery s' a b _ ih =>
    intro h0
    rw [(lift_state_frame s' a b).1] at h0
    rw [ih h0, init_lift_state]

/-- Ingesting two baskets in either order produces the same state. -/
theorem update_right_comm (s : AffinityCache α) (b1 b2 : Finset α) :
    (s.update_with_new_transaction b1).update_with_new_transaction b2 =
      (s.update_with_new_transaction b2).update_with_new_transaction b1 := by
  ext x
  · rfl
  · show s.item_counts x + _ + _ = s.item_counts x + _ + _
    omega
  · show x ∈ s.item_keys ∪ b1 ∪ b2 ↔ x ∈ s.item_keys ∪ b2 ∪ b1
    rw [Finset.union_right_comm]
  · show s.pair_counts x + _ + _ = s.pair_counts x + _ + _
    omega
  · show x ∈ s.pair_keys ∪ _ ∪ _ ↔ x ∈ s.pair_keys ∪ _ ∪ _
    rw [Finset.union_right_comm]
  · show x ∈ s.all_products ∪ b1 ∪ b2 ↔ x ∈ s.all_products ∪ b2 ∪ b1
    rw [Finset.union_right_comm]

instance : RightCommutative (update_with_new_transaction (α := α)) :=
  ⟨update_right_comm⟩

end AffinityCache

/-! ### Further helper lemmas -/

theorem inv_update (s : AffinityCache α) (b : Finset α) (h : AffinityCache.Inv s) :
    AffinityCache.Inv (s.update_with_new_transaction b) := by
  obtain ⟨h1, h2⟩ := h
  constructor
  · intro x
    rw [AffinityCache.update_item_counts, AffinityCache.update_total]
    have := h1 x
    split_ifs <;> omega
  · intro p
    rw [AffinityCache.update_pair_counts, AffinityCache.update_item_counts,
      AffinityCache.update_item_counts]
    have := h2 p
    by_cases hp1 : p.1 ∈ b <;> by_cases hp2 : p.2 ∈ b <;> by_cases hlt : p.1 < p.2 <;>
      simp only [hp1, hp2, hlt, and_true, true_and, and_false, false_and, if_true, if_false] <;>
      omega

theorem sortPair_comm (a b : α) : sortPair a b = sortPair b a := by
  rw [sortPair, sortPair]
  rcases le_total a b with h | h
  · rcases eq_or_lt_of_le h with rfl | hlt
    · simp
    · rw [if_pos h, if_neg (not_le_of_lt hlt)]
  · rcases eq_or_lt_of_le h with rfl | hlt
    · simp
    · rw [if_neg (not_le_of_lt hlt), if_pos h]

theorem get_support_pair_comm (s : AffinityCache α) (a b : α) :
    s.get_support [a, b] = s.get_support [b, a] := by
  rw [AffinityCache.get_support, AffinityCache.get_support, sortPair_comm]

/-! ### The claims -/

/-- Claim C1, amended: for every basket list (both paths group line items
into baskets identically) and every threshold pair with `min_support > 0`
**or** `min_confidence > 0`, the batch path (`MarketBasketAnalyzer.analyze`)
and the incremental path (`AffinityCache` built by ingesting the same
baskets, queried via `get_updated_affinities` with the same thresholds)
produce the same set of directional rules with the same support, confidence
and lift values.  (When both thresholds are `≤ 0` the two paths differ: the
batch path also emits rules for never-co-occurring product pairs.) -/
theorem claim_C1 (bs : List (Finset α)) (ms mc : ℚ) (h : 0 < ms ∨ 0 < mc) :
    MarketBasketAnalyzer.analyze bs ms mc =
      (AffinityCache.ingest_all bs).get_updated_affinities ms mc := by
  rw [MarketBasketAnalyzer.analyze, AffinityCache.get_updated_affinities,
    MarketBasketAnalyzer.filter_candidates_eq bs ms mc h]
  refine Finset.biUnion_congr rfl fun p hp => ?_
  rw [Finset.mem_filter, AffinityCache.ingest_all_pair_keys] at hp
  exact MarketBasketAnalyzer.rules_eq bs hp.1.1

/-- Claim C1, witness at a concrete input (the default thresholds and two
baskets). -/
theorem claim_C1_witness :
    ((0 : ℚ) < 1 / 100 ∨ (0 : ℚ) < 1 / 10) ∧
      MarketBasketAnalyzer.analyze ([{1, 2}, {1}] : List (Finset ℕ)) (1 / 100) (1 / 10) =
        (AffinityCache.ingest_all [{1, 2}, {1}]).get_updated_affinities (1 / 100) (1 / 10) :=
  ⟨Or.inl (by norm_num), claim_C1 _ _ _ (Or.inl (by norm_num))⟩

/-- Claim C1, counterexample to the unrestricted statement: with
`min_support = 0` and `min_confidence = 0` and the baskets `{1}`, `{2}`,
the batch path emits two rules for the never-co-occurring pair `(1, 2)`
while the incremental path emits none. -/
theorem claim_C1_counterexample :
    MarketBasketAnalyzer.analyze ([{1}, {2}] : List (Finset ℕ)) 0 0 ≠
    (AffinityCache.ingest_all [{1}, {2}]).get_updated_affinities 0 0 := by
  have hR : (AffinityCache.ingest_all ([{1}, {2}] : List (Finset ℕ))).get_updated_affinities
      0 0 = ∅ := by
    rw [AffinityCache.get_updated_affinities]
    have hk : (AffinityCache.ingest_all ([{1}, {2}] : List (Finset ℕ))).pair_keys = ∅ := by
      ext p
      rw [AffinityCache.ingest_all_pair_keys]
      simp only [Finset.not_mem_empty, iff_false, not_and]
      intro hlt hpos
      obtain ⟨b, hb, hmem⟩ := List.countP_pos.mp hpos
      simp only [decide_eq_true_eq] at hmem
      rcases List.mem_cons.mp hb with rfl | hb
      · simp only [Finset.mem_singleton] at hmem
        omega
      · rcases List.mem_cons.mp hb with rfl | hb
        · simp only [Finset.mem_singleton] at hmem
          omega
        · simp at hb
    rw [hk, Finset.filter_empty, Finset.biUnion_empty]
  have hcount :
      (List.countP (fun c => decide ((1 : ℕ) ∈ c ∧ 2 ∈ c)) ([{1}, {2}] : List (Finset ℕ))) = 0 := by
    decide
  have hmem : (⟨1, 2, 0, 0, 0⟩ : Rule ℕ) ∈
      MarketBasketAnalyzer.analyze ([{1}, {2}] : List (Finset ℕ)) 0 0 := by
    have hsup : MarketBasketAnalyzer.calculate_support ([{1}, {2}] : List (Finset ℕ)) [1, 2] = 0 := by
      rw [MarketBasketAnalyzer.calculate_support_pair, hcount]
      norm_num
    have hconf : MarketBasketAnalyzer.calculate_confidence ([{1}, {2}] : List (Finset ℕ)) 1 2 = 0 :=
      MarketBasketAnalyzer.calculate_confidence_of_no_cooccur _ hcount
    have hlift : MarketBasketAnalyzer.calculate_lift ([{1}, {2}] : List (Finset ℕ)) 1 2 = 0 := by
      rw [MarketBasketAnalyzer.calculate_lift, hconf]
      split <;> norm_num
    rw [MarketBasketAnalyzer.analyze, Finset.mem_biUnion]
    refine ⟨(1, 2), ?_, ?_⟩
    · rw [Finset.mem_filter]
      refine ⟨?_, ?_, ?_⟩
      · rw [MarketBasketAnalyzer.mem_generate_product_pairs]
        refine ⟨?_, ?_, by norm_num⟩ <;> rw [MarketBasketAnalyzer.mem_all_products]
        · exact ⟨{1}, by simp, by simp⟩
        · exact ⟨{2}, by simp, by simp⟩
      · rw [hsup]
      · exact Or.inl (le_of_eq hconf.symm)
    · rw [MarketBasketAnalyzer.analyzeRules, Finset.mem_insert]
      left
      rw [hsup, hconf, hlift]
  intro h
  rw [h, hR] at hmem
  exact absurd hmem (Finset.not_mem_empty _)

/-- Claim C2: over the stored pairs (which ingestion always keys as sorted
distinct pairs, hence the hypothesis), the rules query emits the rows of a
pair iff its pair support is at least `min_support` and at least one of the
two directional confidences is at least `min_confidence`; every passing
pair contributes exactly two directional rules, so the table has twice as
many rows as there are passing pairs. -/
theorem claim_C2 (s : AffinityCache α) (ms mc : ℚ)
    (hkeys : ∀ p ∈ s.pair_keys, p.1 < p.2) :
    (∀ r : Rule α, r ∈ s.get_updated_affinities ms mc ↔
        ∃ p ∈ s.pair_keys,
          (ms ≤ (s.pair_counts p : ℚ) / (s.total_transactions : ℚ) ∧
            (mc ≤ s.get_confidence p.1 p.2 ∨ mc ≤ s.get_confidence p.2 p.1)) ∧
          r ∈ s.pairRules p) ∧
    (∀ p ∈ s.pair_keys, (s.pairRules p).card = 2) ∧
    (s.get_updated_affinities ms mc).card =
      2 * (s.pair_keys.filter (s.passesThresholds ms mc)).card := by
  have hcard2 : ∀ p ∈ s.pair_keys, (s.pairRules p).card = 2 := by
    intro p hp
    have hlt := hkeys p hp
    rw [AffinityCache.pairRules, Finset.card_insert_of_not_mem, Finset.card_singleton]
    simp only [Finset.mem_singleton]
    intro hEq
    rw [Rule.mk.injEq] at hEq
    rw [hEq.1] at hlt
    exact lt_irrefl _ hlt
  refine ⟨fun r => ?_, hcard2, ?_⟩
  · rw [AffinityCache.get_updated_affinities]
    simp only [Finset.mem_biUnion, Finset.mem_filter, AffinityCache.passesThresholds]
    constructor
    · rintro ⟨p, ⟨h1, h2⟩, h3⟩
      exact ⟨p, h1, h2, h3⟩
    · rintro ⟨p, h1, h2, h3⟩
      exact ⟨p, ⟨h1, h2⟩, h3⟩
  · have hdisj : ∀ p ∈ s.pair_keys.filter (s.passesThresholds ms mc),
        ∀ q ∈ s.pair_keys.filter (s.passesThresholds ms mc), p ≠ q →
          Disjoint (s.pairRules p) (s.pairRules q) := by
      intro p hp q hq hpq
      have hpl := hkeys p (Finset.mem_filter.mp hp).1
      have hql := hkeys q (Finset.mem_filter.mp hq).1
      rw [Finset.disjoint_left]
      intro r hrp hrq
      rw [AffinityCache.pairRules] at hrp hrq
      simp only [Finset.mem_insert, Finset.mem_singleton] at hrp hrq
      apply hpq
      rcases hrp with rfl | rfl <;> rcases hrq with h | h <;> rw [Rule.mk.injEq] at h
      · exact Prod.ext h.1 h.2.1
      · exact absurd (show q.2 < q.1 by rw [← h.1, ← h.2.1]; exact hpl) (lt_asymm hql)
      · exact absurd (show q.2 < q.1 by rw [← h.2.1, ← h.1]; exact hpl) (lt_asymm hql)
      · exact Prod.ext h.2.1 h.1
    rw [AffinityCache.get_updated_affinities, Finset.card_biUnion hdisj]
    calc ∑ p ∈ s.pair_keys.filter (s.passesThresholds ms mc), (s.pairRules p).card
        = ∑ _p ∈ s.pair_keys.filter (s.passesThresholds ms mc), 2 :=
          Finset.sum_congr rfl fun p hp => hcard2 p (Finset.mem_filter.mp hp).1
      _ = 2 * (s.pair_keys.filter (s.passesThresholds ms mc)).card := by
          rw [Finset.sum_const, smul_eq_mul, mul_comm]

/-- Claim C2, witness at a concrete ingested store (one basket `{1, 2}`,
default thresholds). -/
theorem claim_C2_witness :
    (∀ p ∈ (AffinityCache.ingest_all ([{1, 2}] : List (Finset ℕ))).pair_keys, p.1 < p.2) ∧
      ((AffinityCache.ingest_all ([{1, 2}] : List (Finset ℕ))).get_updated_affinities
          (1 / 100) (1 / 10)).card =
        2 * ((AffinityCache.ingest_all ([{1, 2}] : List (Finset ℕ))).pair_keys.filter
          ((AffinityCache.ingest_all ([{1, 2}] : List (Finset ℕ))).passesThresholds
            (1 / 100) (1 / 10))).card :=
  have hk : ∀ p ∈ (AffinityCache.ingest_all ([{1, 2}] : List (Finset ℕ))).pair_keys,
      p.1 < p.2 :=
    fun p hp => ((AffinityCache.ingest_all_pair_keys _ p).mp hp).1
  ⟨hk, (claim_C2 _ (1 / 100) (1 / 10) hk).2.2⟩

/-- Claim C3: the final state after ingesting a multiset of baskets from the
empty cache does not depend on the order of the baskets, and batch ingestion
is exactly the fold of single-transaction ingestion (so one-by-one and
batched ingestion agree); in particular `total_transactions`, `item_counts`
and `pair_counts` all agree. -/
theorem claim_C3 :
    (∀ (s : AffinityCache α) (bs : List (Finset α)),
        s.update_with_batch bs = bs.foldl AffinityCache.update_with_new_transaction s) ∧
    ∀ bs1 bs2 : List (Finset α), bs1.Perm bs2 →
      AffinityCache.ingest_all bs1 = AffinityCache.ingest_all bs2 := by
  refine ⟨fun s bs => rfl, fun bs1 bs2 hperm => ?_⟩
  rw [AffinityCache.ingest_all, AffinityCache.ingest_all, AffinityCache.update_with_batch,
    AffinityCache.update_with_batch]
  exact hperm.foldl_eq AffinityCache.init

/-- Claim C3, witness: swapping two concrete baskets yields the same state. -/
theorem claim_C3_witness :
    AffinityCache.ingest_all ([{1, 2}, {3}] : List (Finset ℕ)) =
      AffinityCache.ingest_all [{3}, {1, 2}] :=
  claim_C3.2 _ _ (List.Perm.swap {3} {1, 2} [])

/-- Claim C4, amended: ingesting an empty batch is a no-op, and ingesting an
empty basket raises no error and leaves `item_counts`, the dict key sets and
`all_products` unchanged — but it **does** increment `total_transactions` by
one (the Python code bumps the counter before looking at the basket). -/
theorem claim_C4 (s : AffinityCache α) :
    s.update_with_batch [] = s ∧
    (s.update_with_new_transaction ∅).total_transactions = s.total_transactions + 1 ∧
    (s.update_with_new_transaction ∅).item_counts = s.item_counts ∧
    (s.update_with_new_transaction ∅).item_keys = s.item_keys ∧
    (s.update_with_new_transaction ∅).pair_counts = s.pair_counts ∧
    (s.update_with_new_transaction ∅).pair_keys = s.pair_keys ∧
    (s.update_with_new_transaction ∅).all_products = s.all_products := by
  refine ⟨rfl, rfl, ?_, ?_, ?_, ?_, ?_⟩
  · funext x
    show s.item_counts x + _ = _
    simp
  · show s.item_keys ∪ ∅ = s.item_keys
    exact Finset.union_empty _
  · funext p
    show s.pair_counts p + (pairsOf ((∅ : Finset α).sort (· ≤ ·))).count p = _
    rw [Finset.sort_empty]
    simp [pairsOf]
  · show s.pair_keys ∪ (pairsOf ((∅ : Finset α).sort (· ≤ ·))).toFinset = s.pair_keys
    rw [Finset.sort_empty]
    simp [pairsOf]
  · exact Finset.union_empty _

/-- Claim C4, counterexample to the unrestricted statement: ingesting an
empty basket into a fresh cache is *not* a no-op — the state changes
(`total_transactions` becomes 1). -/
theorem claim_C4_counterexample :
    (AffinityCache.init : AffinityCache ℕ).update_with_new_transaction ∅ ≠
      AffinityCache.init := by
  intro h
  have h2 := congrArg AffinityCache.total_transactions h
  rw [AffinityCache.update_total] at h2
  exact absurd h2 (by omega)

/-- Claim C5 (code bug witness): with zero transactions the rule table is
empty and, when a product-name map is supplied, `analyze` then crashes with
`KeyError: 'product_a'` (reading a column of the empty, column-less results
DataFrame) instead of returning the empty table; without a name map it does
return the empty table. -/
theorem claim_C5 :
    MarketBasketAnalyzer.analyze_result ([] : List (Finset ℕ))
        (some fun _ => none) (1 / 100) (1 / 10) = Except.error "KeyError: product_a" ∧
    MarketBasketAnalyzer.analyze_result ([] : List (Finset ℕ))
        none (1 / 100) (1 / 10) = Except.ok ∅ := by
  have hpairs : MarketBasketAnalyzer.generate_product_pairs ([] : List (Finset ℕ)) = ∅ := by
    rw [MarketBasketAnalyzer.generate_product_pairs]
    rfl
  have hempty : MarketBasketAnalyzer.analyze ([] : List (Finset ℕ)) (1 / 100) (1 / 10) = ∅ := by
    rw [MarketBasketAnalyzer.analyze, hpairs, Finset.filter_empty, Finset.biUnion_empty]
  constructor
  · rw [MarketBasketAnalyzer.analyze_result]
    simp only [hempty, if_pos]
  · rw [MarketBasketAnalyzer.analyze_result]
    simp only [hempty, Finset.image_empty]

/-- Claim C6, amended: no query changes `total_transactions`, `all_products`
or the *value* of any item/pair count (the `defaultdict`s viewed as
zero-defaulted total maps); `get_statistics` performs no writes at all in
the model.  However the point queries `get_support` / `get_confidence` /
`get_lift` are not state-preserving: a `defaultdict` read inserts the
looked-up key with value 0 when it is absent, growing the dict key sets
(see the counterexample, observable through `get_statistics`). -/
theorem claim_C6 (s : AffinityCache α) (itemset : List α) (a b : α) :
    ((s.get_support_state itemset).total_transactions = s.total_transactions ∧
      (s.get_support_state itemset).item_counts = s.item_counts ∧
      (s.get_support_state itemset).pair_counts = s.pair_counts ∧
      (s.get_support_state itemset).all_products = s.all_products) ∧
    ((s.get_confidence_state a b).total_transactions = s.total_transactions ∧
      (s.get_confidence_state a b).item_counts = s.item_counts ∧
      (s.get_confidence_state a b).pair_counts = s.pair_counts ∧
      (s.get_confidence_state a b).all_products = s.all_products) ∧
    ((s.get_lift_state a b).total_transactions = s.total_transactions ∧
      (s.get_lift_state a b).item_counts = s.item_counts ∧
      (s.get_lift_state a b).pair_counts = s.pair_counts ∧
      (s.get_lift_state a b).all_products = s.all_products) :=
  ⟨AffinityCache.support_state_frame s itemset, AffinityCache.confidence_state_frame s a b,
    AffinityCache.lift_state_frame s a b⟩

/-- Claim C6, counterexample to the unrestricted statement: on a store with
one ingested basket `{1}`, querying the support of the absent pair `(1, 2)`
inserts the key `(1, 2)` into `pair_counts`, which changes the
`get_statistics` snapshot (`unique_pairs` goes from 0 to 1). -/
theorem claim_C6_counterexample :
    ((AffinityCache.ingest_all ([{1}] : List (Finset ℕ))).get_support_state
        [1, 2]).get_statistics ≠
      (AffinityCache.ingest_all ([{1}] : List (Finset ℕ))).get_statistics := by
  have hk : (AffinityCache.ingest_all ([{1}] : List (Finset ℕ))).pair_keys = ∅ := by
    ext p
    rw [AffinityCache.ingest_all_pair_keys]
    simp only [Finset.not_mem_empty, iff_false, not_and]
    intro hlt hpos
    obtain ⟨c, hc, hmem⟩ := List.countP_pos.mp hpos
    simp only [decide_eq_true_eq] at hmem
    rcases List.mem_cons.mp hc with rfl | hc
    · simp only [Finset.mem_singleton] at hmem
      omega
    · simp at hc
  have ht : (AffinityCache.ingest_all ([{1}] : List (Finset ℕ))).total_transactions = 1 := by
    rw [AffinityCache.ingest_all_total]
    rfl
  have hstate : (AffinityCache.ingest_all ([{1}] : List (Finset ℕ))).get_support_state [1, 2] =
      { AffinityCache.ingest_all ([{1}] : List (Finset ℕ)) with
        pair_keys :=
          insert (sortPair 1 2) (AffinityCache.ingest_all ([{1}] : List (Finset ℕ))).pair_keys } := by
    rw [AffinityCache.get_support_state, if_neg (by rw [ht]; omega)]
  intro h
  have h2 := congrArg AffinityCache.Statistics.unique_pairs h
  rw [AffinityCache.get_statistics, AffinityCache.get_statistics, hstate, hk] at h2
  simp at h2

/-- Claim C7: single-transaction ingestion preserves the two count
invariants (item count ≤ total transactions; pair count ≤ the count of
either member item), and every state obtained by ingesting any basket list
into a fresh cache satisfies them. -/
theorem claim_C7 :
    (∀ (s : AffinityCache α) (b : Finset α), AffinityCache.Inv s →
        AffinityCache.Inv (s.update_with_new_transaction b)) ∧
    ∀ bs : List (Finset α), AffinityCache.Inv (AffinityCache.ingest_all bs) := by
  refine ⟨inv_update, fun bs => ?_⟩
  have hinit : AffinityCache.Inv (AffinityCache.init : AffinityCache α) := by
    refine ⟨fun x => ?_, fun p => ?_⟩ <;> simp [AffinityCache.init]
  have h : ∀ s : AffinityCache α, AffinityCache.Inv s →
      AffinityCache.Inv (s.update_with_batch bs) := by
    induction bs with
    | nil => exact fun s hs => hs
    | cons c cs ih => exact fun s hs => ih _ (inv_update s c hs)
  exact h _ hinit

/-- Claim C7, witness: the invariants hold after ingesting `{1, 2}` into a
fresh cache, by the preservation half of the claim. -/
theorem claim_C7_witness :
    AffinityCache.Inv ((AffinityCache.init : AffinityCache ℕ).update_with_new_transaction
      {1, 2}) :=
  claim_C7.1 AffinityCache.init {1, 2}
    (by refine ⟨fun x => ?_, fun p => ?_⟩ <;> simp [AffinityCache.init])

/-- Claim C8, amended: `AffinityCache.get_support` returns 0 for every
itemset whose arity is not 1 and not 2 — but the batch analyzer's
`calculate_support` has no arity guard: it converts the itemset to a set
and returns its actual subset frequency (see the counterexample). -/
theorem claim_C8 (s : AffinityCache α) (itemset : List α)
    (h1 : itemset.length ≠ 1) (h2 : itemset.length ≠ 2) :
    s.get_support itemset = 0 := by
  rcases itemset with _ | ⟨x, _ | ⟨y, _ | ⟨z, t⟩⟩⟩
  · rw [AffinityCache.get_support]
    · split <;> rfl
    all_goals simp
  · exact absurd rfl h1
  · exact absurd rfl h2
  · rw [AffinityCache.get_support]
    · split <;> rfl
    all_goals simp

/-- Claim C8, witness: a 3-element itemset on an ingested store. -/
theorem claim_C8_witness :
    (([1, 2, 3] : List ℕ).length ≠ 1 ∧ ([1, 2, 3] : List ℕ).length ≠ 2) ∧
      (AffinityCache.ingest_all ([{1, 2, 3}] : List (Finset ℕ))).get_support [1, 2, 3] = 0 :=
  ⟨⟨by decide, by decide⟩, claim_C8 _ _ (by decide) (by decide)⟩

/-- Claim C8, counterexample to the `calculate_support` half: the batch
analyzer's support of the 3-element itemset `{1, 2, 3}` on the single
basket `{1, 2, 3}` is 1, not 0. -/
theorem claim_C8_counterexample :
    MarketBasketAnalyzer.calculate_support ([{1, 2, 3}] : List (Finset ℕ)) [1, 2, 3] ≠ 0 := by
  have hc : List.countP (fun b => decide (([1, 2, 3] : List ℕ).toFinset ⊆ b))
      ([{1, 2, 3}] : List (Finset ℕ)) = 1 := by decide
  rw [MarketBasketAnalyzer.calculate_support, if_neg (by simp), hc]
  norm_num

/-- Claim C9: in every reachable state with zero ingested transactions, all
metric queries return 0, the rules query returns the empty table, and
`pair_counts` has no keys — so the unguarded division inside
`get_updated_affinities` is never executed with `total_transactions = 0`. -/
theorem claim_C9 (s : AffinityCache α) (hr : AffinityCache.Reachable s)
    (h0 : s.total_transactions = 0) :
    (∀ itemset, s.get_support itemset = 0) ∧
    (∀ a b, s.get_confidence a b = 0) ∧
    (∀ a b, s.get_lift a b = 0) ∧
    (∀ ms mc : ℚ, s.get_updated_affinities ms mc = ∅) ∧
    s.pair_keys = ∅ := by
  have hs : s = AffinityCache.init := AffinityCache.reachable_total_zero hr h0
  subst hs
  refine ⟨AffinityCache.init_get_support, fun a b => ?_, fun a b => ?_, fun ms mc => ?_, rfl⟩
  · rw [AffinityCache.get_confidence, if_pos (AffinityCache.init_get_support [a])]
  · rw [AffinityCache.get_lift, if_pos (AffinityCache.init_get_support [b])]
  · rw [AffinityCache.get_updated_affinities]
    show ((∅ : Finset (α × α)).filter _).biUnion _ = ∅
    rw [Finset.filter_empty, Finset.biUnion_empty]

/-- Claim C9, witness at the freshly constructed store. -/
theorem claim_C9_witness :
    (AffinityCache.init : AffinityCache ℕ).total_transactions = 0 ∧
      (AffinityCache.init : AffinityCache ℕ).pair_keys = ∅ :=
  ⟨rfl, (claim_C9 AffinityCache.init AffinityCache.Reachable.init rfl).2.2.2.2⟩

/-- Claim C10: lift is symmetric whenever both singleton supports are
nonzero — both directions equal `support({a,b})` divided by
`support({a}) * support({b})` in exact rational arithmetic — even though
confidence is asymmetric. -/
theorem claim_C10 (s : AffinityCache α) (a b : α)
    (ha : s.get_support [a] ≠ 0) (hb : s.get_support [b] ≠ 0) :
    s.get_lift a b = s.get_lift b a := by
  rw [AffinityCache.get_lift, AffinityCache.get_lift, if_neg hb, if_neg ha,
    AffinityCache.get_confidence, AffinityCache.get_confidence, if_neg ha, if_neg hb,
    get_support_pair_comm s b a, div_div, div_div, mul_comm]

/-- Claim C10, witness on the store with the single basket `{1, 2}`. -/
theorem claim_C10_witness :
    (AffinityCache.ingest_all ([{1, 2}] : List (Finset ℕ))).get_support [1] ≠ 0 ∧
    (AffinityCache.ingest_all ([{1, 2}] : List (Finset ℕ))).get_support [2] ≠ 0 ∧
    (AffinityCache.ingest_all ([{1, 2}] : List (Finset ℕ))).get_lift 1 2 =
      (AffinityCache.ingest_all ([{1, 2}] : List (Finset ℕ))).get_lift 2 1 := by
  have htot : (AffinityCache.ingest_all ([{1, 2}] : List (Finset ℕ))).total_transactions = 1 := by
    rw [AffinityCache.ingest_all_total]
    rfl
  have h1 : (AffinityCache.ingest_all ([{1, 2}] : List (Finset ℕ))).get_support [1] ≠ 0 := by
    rw [AffinityCache.get_support, if_neg (by omega), AffinityCache.ingest_all_item_counts,
      htot]
    norm_num [List.countP_cons]
  have h2 : (AffinityCache.ingest_all ([{1, 2}] : List (Finset ℕ))).get_support [2] ≠ 0 := by
    rw [AffinityCache.get_support, if_neg (by omega), AffinityCache.ingest_all_item_counts,
      htot]
    norm_num [List.countP_cons]
  exact ⟨h1, h2, claim_C10 _ 1 2 h1 h2⟩

end HCL
